import Mathlib

/-!
Shallow embedding of the statevector quantum-circuit simulator
(`qubo/circuit.py`, `qubo/simulator.py`, `qubo/noise.py`).

Conventions of the embedding:
* Amplitude vectors `np.ndarray` of length `2^n` are total functions `ℕ → ℂ`;
  indices `≥ 2^n` are never touched by the loops (which iterate over
  `range(2^n)` exactly as the Python loops do).
* Python's in-place array writes become `Function.update` folds over
  `List.range (2^n)`, preserving the source's sequential write order.
* `(i >> k) & 1 == 1` is `Nat.testBit i k`; `1 << k` is `1 <<< k`.
* numpy's global pseudo-random generator is an explicit `Rng` state
  (a seed together with a draw counter); `np.random.seed` resets it and each
  categorical draw of `np.random.choice` advances it.  The value of one draw
  is an abstract parameter `sample : Rng → List ℝ → ℕ` (the generator's
  actual bit stream is external to the repository), which is deterministic
  in the generator state and the probability vector, as numpy's is.
* A Python function that may raise is embedded with `Except`/`Option`.
-/

noncomputable section

/-- State of numpy's global pseudo-random generator: the seed last installed
by `np.random.seed` plus how many draws have been consumed since. -/
structure Rng where
  seed : ℕ
  pos : ℕ
deriving DecidableEq

/-- `Gate` from `qubo/circuit.py`: a name, ordered target qubit indices and
optional real parameters. -/
structure Gate where
  name : String
  targets : List ℕ
  params : List ℝ

/-- `QuantumCircuit` from `qubo/circuit.py`: a fixed qubit count and an
ordered gate list. -/
structure QuantumCircuit where
  num_qubits : ℕ
  gates : List Gate

/-- The first positional argument of `QuantumCircuit.add_gate`: either a
`Gate` instance or a gate name. -/
inductive GateArg where
  | inst : Gate → GateArg
  | byName : String → GateArg

/-- `QuantumCircuit.add_gate` from `qubo/circuit.py`.  A `Gate` instance is
appended unconditionally; a name requires `targets` (else
`ValueError('targets required when adding gate by name')`) and appends
`Gate(gate, targets, params)` where `params or []` defaults to `[]`.
No arity or index-range check appears anywhere in the function. -/
def add_gate (c : QuantumCircuit) (g : GateArg) (targets : Option (List ℕ))
    (params : Option (List ℝ)) : Except String QuantumCircuit :=
  match g with
  | .inst gt => .ok { c with gates := c.gates ++ [gt] }
  | .byName nm =>
    match targets with
    | none => .error "targets required when adding gate by name"
    | some ts => .ok { c with gates := c.gates ++ [⟨nm, ts, params.getD []⟩] }

/-- The result of `StatevectorSimulator.run`: either the final amplitude
vector or, on measurement, a mapping from fixed-width binary labels to
sample counts (a Python dict, embedded as its lookup function with default
count `0`). -/
inductive RunResult where
  | state : (ℕ → ℂ) → RunResult
  | counts : (String → ℕ) → RunResult

/-- The initial ground state set up in `StatevectorSimulator.__init__`:
`np.zeros(2**n)` with `state[0] = 1.0`. -/
def groundState : ℕ → ℂ := fun i => if i = 0 then 1 else 0

/-- `np.random.seed(int(seed))` in `StatevectorSimulator.__init__`:
if a seed is given the global generator is reset, otherwise the global
generator is left as it was. -/
def initRng (seed : Option ℕ) (g : Rng) : Rng :=
  match seed with
  | some s => ⟨s, 0⟩
  | none => g

/-- The `H` matrix built in `run`: `(1/np.sqrt(2)) * [[1, 1], [1, -1]]`. -/
def Hmat : Fin 2 → Fin 2 → ℂ := fun r c =>
  ((Real.sqrt 2 : ℝ) : ℂ)⁻¹ * (if r = 1 ∧ c = 1 then -1 else 1)

/-- The `X` matrix built in `run`: `[[0, 1], [1, 0]]`. -/
def Xmat : Fin 2 → Fin 2 → ℂ := fun r c => if r = c then 0 else 1

/-- The `RX` matrix built in `run`:
`[[cos(θ/2), -i sin(θ/2)], [-i sin(θ/2), cos(θ/2)]]`. -/
def RXmat (θ : ℝ) : Fin 2 → Fin 2 → ℂ := fun r c =>
  if r = c then ((Real.cos (θ / 2) : ℝ) : ℂ)
  else -Complex.I * ((Real.sin (θ / 2) : ℝ) : ℂ)

/-- The `RY` matrix built in `run`:
`[[cos(θ/2), -sin(θ/2)], [sin(θ/2), cos(θ/2)]]`. -/
def RYmat (θ : ℝ) : Fin 2 → Fin 2 → ℂ := fun r c =>
  if r = c then ((Real.cos (θ / 2) : ℝ) : ℂ)
  else if r = 0 then -((Real.sin (θ / 2) : ℝ) : ℂ)
  else ((Real.sin (θ / 2) : ℝ) : ℂ)

/-- The `RZ` matrix built in `run`:
`[[exp(-0.5i θ), 0], [0, exp(0.5i θ)]]`. -/
def RZmat (θ : ℝ) : Fin 2 → Fin 2 → ℂ := fun r c =>
  if r = 0 ∧ c = 0 then Complex.exp (-(θ : ℂ) / 2 * Complex.I)
  else if r = 1 ∧ c = 1 then Complex.exp ((θ : ℂ) / 2 * Complex.I)
  else 0

/-- Action of a 2×2 matrix `U` on the pair of amplitudes at indices differing
exactly in bit `b`: the index with bit `b` clear takes row 0, the index with
bit `b` set takes row 1. -/
def applyPair (U : Fin 2 → Fin 2 → ℂ) (b : ℕ) (s : ℕ → ℂ) : ℕ → ℂ :=
  fun i =>
    if i.testBit b then U 1 0 * s (i ^^^ (1 <<< b)) + U 1 1 * s i
    else U 0 0 * s i + U 0 1 * s (i ^^^ (1 <<< b))

/-- `StatevectorSimulator._apply_single_qubit_unitary`.  The source reshapes
the length-`2^n` buffer to an `n`-axis tensor with `state.reshape([2]*n)`,
moves axis `target` to the front, and left-multiplies by `U`.  In numpy's
C-order reshape, axis `k` of the tensor is bit `n-1-k` of the flat index
(axis 0 is the most significant bit), so the algorithm applies `U` to the
pair of indices differing exactly in bit `n-1-target`.  Note this is the
opposite endianness from `_apply_cnot`/`_apply_swap`, which test bits with
`(i >> k) & 1` (bit `k` of the flat index). -/
def apply_single_qubit_unitary (n : ℕ) (U : Fin 2 → Fin 2 → ℂ) (target : ℕ)
    (s : ℕ → ℂ) : ℕ → ℂ :=
  applyPair U (n - 1 - target) s

/-- `StatevectorSimulator._apply_cnot`: `new = state.copy()`, then for every
`i` in `range(2^n)` with `(i >> control) & 1 == 1`, the simultaneous
assignment `new[i], new[j] = state[j], state[i]` with `j = i ^ (1 << target)`
(both values read from the pre-gate `state`). -/
def apply_cnot (n control target : ℕ) (s : ℕ → ℂ) : ℕ → ℂ :=
  (List.range (2 ^ n)).foldl
    (fun new i =>
      if i.testBit control then
        Function.update (Function.update new i (s (i ^^^ (1 <<< target))))
          (i ^^^ (1 <<< target)) (s i)
      else new)
    s

/-- `StatevectorSimulator._apply_swap`: for every `i` in `range(2^n)`,
`new[i] = state[i ^ ((1 << a) | (1 << b))]` when bits `a` and `b` of `i`
differ, else `new[i] = state[i]`. -/
def apply_swap (n a b : ℕ) (s : ℕ → ℂ) : ℕ → ℂ :=
  (List.range (2 ^ n)).foldl
    (fun new i =>
      Function.update new i
        (if (i.testBit a ≠ i.testBit b) then s (i ^^^ ((1 <<< a) ||| (1 <<< b)))
         else s i))
    s

/-- A noise hook `noise_hook(state, gate) -> state`; `none` as a result
embeds the hook raising an exception. -/
def NoiseHook : Type := (ℕ → ℂ) → Gate → Option (ℕ → ℂ)

/-- The per-gate noise step at the end of `run`'s loop body:
`if self.noise_hook is not None: try: state = hook(state, gate)
except Exception: pass` — no hook or a raising hook keeps the pre-hook
state. -/
def noiseStep (hook : Option NoiseHook) (s : ℕ → ℂ) (g : Gate) : ℕ → ℂ :=
  match hook with
  | none => s
  | some h => (h s g).getD s

/-- `format(r, f'0{n}b')`: the width-`n` zero-padded binary label of `r`,
most significant bit first. -/
def toBin (w r : ℕ) : String :=
  String.mk ((List.range w).map (fun k => if r.testBit (w - 1 - k) then '1' else '0'))

/-- The tally loop of the measurement branch:
`counts[b] = counts.get(b, 0) + 1` over the drawn samples, starting from the
empty dict. -/
def tallyLoop (w : ℕ) (samples : List ℕ) : String → ℕ :=
  samples.foldl (fun cnts r => fun b => if b = toBin w r then cnts b + 1 else cnts b)
    (fun _ => 0)

/-- `np.random.choice(len(probs), size=shots, p=probs)`: `shots` categorical
draws, each one a deterministic function (`sample`) of the global generator
state and the probability vector, each advancing the generator. -/
def drawSamples (sample : Rng → List ℝ → ℕ) :
    ℕ → Rng → List ℝ → List ℕ × Rng
  | 0, g, _ => ([], g)
  | k + 1, g, probs =>
    let v := sample g probs
    let rest := drawSamples sample k ⟨g.seed, g.pos + 1⟩ probs
    (v :: rest.1, rest.2)

/-- The gate loop of `StatevectorSimulator.run` (`simulator.py` lines
55–98): dispatch on `gate.name` through the `if`/`elif` chain, apply the
noise hook after every non-measurement gate (also after a gate whose name
matched no branch — the chain has no `else`, so unrecognized names fall
through with the state unchanged), and on `M`/`Measure` compute
`|amplitude|²` probabilities, draw `shots` samples, tally them by binary
label and return immediately. -/
def runGates (sample : Rng → List ℝ → ℕ) (n : ℕ) (hook : Option NoiseHook)
    (shots : ℕ) : List Gate → (ℕ → ℂ) → Rng → RunResult × Rng
  | [], s, g => (RunResult.state s, g)
  | gate :: rest, s, g =>
    if gate.name = "H" then
      runGates sample n hook shots rest
        (noiseStep hook (apply_single_qubit_unitary n Hmat (gate.targets.getD 0 0) s) gate) g
    else if gate.name = "X" then
      runGates sample n hook shots rest
        (noiseStep hook (apply_single_qubit_unitary n Xmat (gate.targets.getD 0 0) s) gate) g
    else if gate.name = "RX" then
      runGates sample n hook shots rest
        (noiseStep hook
          (apply_single_qubit_unitary n (RXmat (gate.params.getD 0 0)) (gate.targets.getD 0 0) s)
          gate) g
    else if gate.name = "RY" then
      runGates sample n hook shots rest
        (noiseStep hook
          (apply_single_qubit_unitary n (RYmat (gate.params.getD 0 0)) (gate.targets.getD 0 0) s)
          gate) g
    else if gate.name = "RZ" then
      runGates sample n hook shots rest
        (noiseStep hook
          (apply_single_qubit_unitary n (RZmat (gate.params.getD 0 0)) (gate.targets.getD 0 0) s)
          gate) g
    else if gate.name = "CNOT" then
      runGates sample n hook shots rest
        (noiseStep hook (apply_cnot n (gate.targets.getD 0 0) (gate.targets.getD 1 0) s) gate) g
    else if gate.name = "SWAP" then
      runGates sample n hook shots rest
        (noiseStep hook (apply_swap n (gate.targets.getD 0 0) (gate.targets.getD 1 0) s) gate) g
    else if gate.name = "M" ∨ gate.name = "Measure" then
      let probs := (List.range (2 ^ n)).map (fun i => Complex.normSq (s i))
      let res := drawSamples sample shots g probs
      (RunResult.counts (tallyLoop n res.1), res.2)
    else
      runGates sample n hook shots rest (noiseStep hook s gate) g

/-- `StatevectorSimulator(circuit, noise_hook, seed)` followed by
`run(shots)`: seed the global generator (if a seed was given), start from
the ground state, and iterate the circuit's gates. -/
def simRun (sample : Rng → List ℝ → ℕ) (c : QuantumCircuit)
    (hook : Option NoiseHook) (seed : Option ℕ) (shots : ℕ) (g : Rng) :
    RunResult × Rng :=
  runGates sample c.num_qubits hook shots c.gates (groundState) (initRng seed g)

/-- `bit_flip(state, p, target)` from `qubo/noise.py`: for each `i` in
`range(len(state))`, when the drawn uniform variate is below `p` (coin
`true`), the in-place simultaneous swap
`new_state[i], new_state[j] = new_state[j], new_state[i]` with
`j = i ^ (1 << target)` — both values read from the current (already
partially swapped) buffer, not from the original `state`.  `coins i` embeds
`np.random.rand() < p` at iteration `i`; for `p = 1` every coin is `true`
since `np.random.rand()` is uniform on `[0, 1)`. -/
def bit_flip (coins : ℕ → Bool) (len target : ℕ) (s : ℕ → ℂ) : ℕ → ℂ :=
  (List.range len).foldl
    (fun ns i =>
      if coins i then
        Function.update (Function.update ns i (ns (i ^^^ (1 <<< target))))
          (i ^^^ (1 <<< target)) (ns i)
      else ns)
    s

/-- `Σ_{i < 2^n} |s i|²`, the squared norm of an amplitude vector. -/
def normSum (n : ℕ) (s : ℕ → ℂ) : ℝ :=
  ∑ i ∈ Finset.range (2 ^ n), Complex.normSq (s i)

/-- `U† U = 1` for a 2×2 matrix, written entrywise: both columns are unit
vectors and the two columns are orthogonal. -/
def IsUnitary2 (U : Fin 2 → Fin 2 → ℂ) : Prop :=
  Complex.normSq (U 0 0) + Complex.normSq (U 1 0) = 1 ∧
  Complex.normSq (U 0 1) + Complex.normSq (U 1 1) = 1 ∧
  (starRingEnd ℂ) (U 0 0) * U 0 1 + (starRingEnd ℂ) (U 1 0) * U 1 1 = 0

/-- The gate names `run` recognizes (the `if`/`elif` chain plus the
measurement pair). -/
def recognizedNames : List String :=
  ["H", "X", "RX", "RY", "RZ", "CNOT", "SWAP", "M", "Measure"]

/-- Validity of one unitary-only gate for the normalization invariant: the
name is one of the eleven gate names of the spec (no measurement), and the
targets the dispatch actually reads are in range (and distinct for the
two-qubit gates). -/
abbrev unitaryGateOK (n : ℕ) (g : Gate) : Prop :=
  g.name ∈ ["H", "X", "Y", "Z", "S", "T", "RX", "RY", "RZ", "CNOT", "SWAP"] ∧
  ((g.name = "CNOT" ∨ g.name = "SWAP") →
    g.targets.getD 0 0 < n ∧ g.targets.getD 1 0 < n ∧
      g.targets.getD 0 0 ≠ g.targets.getD 1 0) ∧
  ((g.name = "H" ∨ g.name = "X" ∨ g.name = "RX" ∨ g.name = "RY" ∨ g.name = "RZ") →
    g.targets.getD 0 0 < n)

/-- A measurement gate name: the `name in ('M', 'Measure')` test of `run`. -/
def isMeasure (g : Gate) : Prop := g.name = "M" ∨ g.name = "Measure"

/-- Count lookup on a run result (`0` when the run returned a statevector). -/
def countsAt : RunResult → String → ℕ
  | .counts c, b => c b
  | .state _, _ => 0

/-- A concrete categorical sampler used for closed instances: always draws
outcome `0`. -/
def sampleZero : Rng → List ℝ → ℕ := fun _ _ => 0

/-- A concrete categorical sampler whose draw alternates with the posiion
of the global generator. -/
def samplePos : Rng → List ℝ → ℕ := fun g _ => g.pos % 2

/-! ### Bit-level helper lemmas -/

lemma testBit_xor_shift_self (i b : ℕ) :
    (i ^^^ (1 <<< b)).testBit b = !(i.testBit b) := by
  simp [Nat.one_shiftLeft, Nat.testBit_xor, Nat.testBit_two_pow_self]

lemma testBit_xor_shift_ne (i b c : ℕ) (h : c ≠ b) :
    (i ^^^ (1 <<< b)).testBit c = i.testBit c := by
  simp [Nat.one_shiftLeft, Nat.testBit_xor, Nat.testBit_two_pow_of_ne (Ne.symm h)]

lemma xor_shift_lt {i n : ℕ} (b : ℕ) (hi : i < 2 ^ n) (hb : b < n) :
    i ^^^ (1 <<< b) < 2 ^ n := by
  rw [Nat.one_shiftLeft]
  exact Nat.xor_lt_two_pow hi (Nat.pow_lt_pow_right (by norm_num) hb)

lemma xor_xor_shift (i b : ℕ) : (i ^^^ (1 <<< b)) ^^^ (1 <<< b) = i :=
  Nat.xor_cancel_right _ i

/-- Reindexing a filtered sum over `range (2^n)` along `· ^^^ mask`. -/
lemma sum_filter_xor (n mask : ℕ) (P Q : ℕ → Prop) [DecidablePred P] [DecidablePred Q]
    (f : ℕ → ℝ)
    (hPQ : ∀ i, i < 2 ^ n → P i → (i ^^^ mask < 2 ^ n ∧ Q (i ^^^ mask)))
    (hQP : ∀ i, i < 2 ^ n → Q i → (i ^^^ mask < 2 ^ n ∧ P (i ^^^ mask))) :
    ∑ i ∈ (Finset.range (2 ^ n)).filter P, f (i ^^^ mask)
      = ∑ i ∈ (Finset.range (2 ^ n)).filter Q, f i := by
  refine Finset.sum_nbij' (fun i => i ^^^ mask) (fun i => i ^^^ mask) ?_ ?_ ?_ ?_ ?_
  · intro a ha
    rw [Finset.mem_filter, Finset.mem_range] at ha ⊢
    exact ⟨(hPQ a ha.1 ha.2).1, (hPQ a ha.1 ha.2).2⟩
  · intro a ha
    rw [Finset.mem_filter, Finset.mem_range] at ha ⊢
    exact ⟨(hQP a ha.1 ha.2).1, (hQP a ha.1 ha.2).2⟩
  · intro a _
    exact Nat.xor_cancel_right _ _
  · intro a _
    exact Nat.xor_cancel_right _ _
  · intro a _
    rfl

/-- The 2×2 unitarity conditions make the row action preserve the summed
squared modulus of an amplitude pair. -/
lemma unitary_pair_normSq (U : Fin 2 → Fin 2 → ℂ) (hU : IsUnitary2 U) (a c : ℂ) :
    Complex.normSq (U 0 0 * a + U 0 1 * c) + Complex.normSq (U 1 0 * a + U 1 1 * c)
      = Complex.normSq a + Complex.normSq c := by
  obtain ⟨h1, h2, h3⟩ := hU
  have h3re := congrArg Complex.re h3
  have h3im := congrArg Complex.im h3
  simp only [Complex.add_re, Complex.add_im, Complex.mul_re, Complex.mul_im,
    Complex.conj_re, Complex.conj_im, Complex.zero_re, Complex.zero_im,
    Complex.normSq_apply] at h1 h2 h3re h3im ⊢
  linear_combination (a.re ^ 2 + a.im ^ 2) * h1 + (c.re ^ 2 + c.im ^ 2) * h2 +
    (2 * (a.re * c.re + a.im * c.im)) * h3re +
    (2 * (a.im * c.re - a.re * c.im)) * h3im

/-! ### Closed forms for the index-loop gates -/

/-- A fold of single-index writes over `range N`, each write depending only
on the loop index (the SWAP loop shape), evaluates pointwise. -/
lemma foldl_update_range (g : ℕ → ℂ) (N : ℕ) (s : ℕ → ℂ) :
    (List.range N).foldl (fun f i => Function.update f i (g i)) s
      = fun m => if m < N then g m else s m := by
  induction N with
  | zero => funext m; simp
  | succ k ih =>
    rw [List.range_succ, List.foldl_append, List.foldl_cons, List.foldl_nil, ih]
    funext m
    rcases eq_or_ne m k with hm | hm
    · subst hm
      simp [Function.update]
    · rw [Function.update_noteq hm]
      have : m < k + 1 ↔ m < k := by omega
      simp only [this]

/-- Pointwise value of `_apply_swap`: indices inside `range(2^n)` whose bits
`a` and `b` differ take the amplitude of the partner index, everything else
is unchanged. -/
lemma apply_swap_apply (n a b : ℕ) (s : ℕ → ℂ) (m : ℕ) :
    apply_swap n a b s m
      = if m < 2 ^ n then
          (if (m.testBit a ≠ m.testBit b) then s (m ^^^ ((1 <<< a) ||| (1 <<< b)))
           else s m)
        else s m := by
  unfold apply_swap
  rw [foldl_update_range (fun i =>
    if (i.testBit a ≠ i.testBit b) then s (i ^^^ ((1 <<< a) ||| (1 <<< b))) else s i)]

/-- One iteration of the `_apply_cnot` loop body. -/
def cnotStep (control target : ℕ) (s : ℕ → ℂ) : (ℕ → ℂ) → ℕ → (ℕ → ℂ) :=
  fun new i =>
    if i.testBit control then
      Function.update (Function.update new i (s (i ^^^ (1 <<< target))))
        (i ^^^ (1 <<< target)) (s i)
    else new

lemma apply_cnot_def (n control target : ℕ) (s : ℕ → ℂ) :
    apply_cnot n control target s
      = (List.range (2 ^ n)).foldl (cnotStep control target s) s := rfl

/-- Every write the `_apply_cnot` loop performs at an index `m` writes the
same value `s (m ^^^ (1 <<< target))`, so after processing `range k` an
index holds that value exactly when some processed iteration touched it. -/
lemma cnot_fold_eval (control target : ℕ) (hct : control ≠ target) (s : ℕ → ℂ) :
    ∀ (k : ℕ) (i : ℕ), ((List.range k).foldl (cnotStep control target s) s) i
      = if i.testBit control ∧ (i < k ∨ i ^^^ (1 <<< target) < k)
        then s (i ^^^ (1 <<< target)) else s i := by
  intro k
  induction k with
  | zero => intro i; simp
  | succ k ih =>
    intro i
    rw [List.range_succ, List.foldl_append, List.foldl_cons, List.foldl_nil]
    set acc := (List.range k).foldl (cnotStep control target s) s with hacc
    simp only [cnotStep]
    by_cases hk : k.testBit control
    · rw [if_pos hk]
      rcases eq_or_ne i (k ^^^ (1 <<< target)) with hi | hi
      · subst hi
        rw [Function.update_same]
        have hc : (k ^^^ (1 <<< target)).testBit control = true := by
          rw [testBit_xor_shift_ne _ _ _ hct]; exact hk
        rw [if_pos ⟨hc, Or.inr (by rw [xor_xor_shift]; omega)⟩, xor_xor_shift]
      · rw [Function.update_noteq hi]
        rcases eq_or_ne i k with hik | hik
        · subst hik
          rw [Function.update_same, if_pos ⟨hk, Or.inl (by omega)⟩]
        · rw [Function.update_noteq hik, ih i]
          have him : i ^^^ (1 <<< target) ≠ k := by
            intro h
            apply hi
            rw [← h, xor_xor_shift]
          have h1 : (i < k + 1 ∨ i ^^^ (1 <<< target) < k + 1)
              ↔ (i < k ∨ i ^^^ (1 <<< target) < k) := by omega
          simp only [h1]
    · rw [if_neg hk, ih i]
      by_cases hic : i.testBit control
      · have hik : i ≠ k := fun h => hk (h ▸ hic)
        have him : i ^^^ (1 <<< target) ≠ k := by
          intro h
          apply hk
          rw [← h, testBit_xor_shift_ne _ _ _ hct]
          exact hic
        have h1 : (i < k + 1 ∨ i ^^^ (1 <<< target) < k + 1)
            ↔ (i < k ∨ i ^^^ (1 <<< target) < k) := by omega
        simp only [h1]
      · simp [hic]

/-- Pointwise value of `_apply_cnot` for distinct control and target bits. -/
lemma apply_cnot_apply (n control target : ℕ) (hct : control ≠ target)
    (s : ℕ → ℂ) (i : ℕ) :
    apply_cnot n control target s i
      = if i.testBit control ∧ (i < 2 ^ n ∨ i ^^^ (1 <<< target) < 2 ^ n)
        then s (i ^^^ (1 <<< target)) else s i := by
  rw [apply_cnot_def]
  exact cnot_fold_eval control target hct s (2 ^ n) i

/-! ### Norm preservation of the gate primitives -/

lemma applyPair_normSum (U : Fin 2 → Fin 2 → ℂ) (hU : IsUnitary2 U) {b n : ℕ}
    (hb : b < n) (s : ℕ → ℂ) :
    normSum n (applyPair U b s) = normSum n s := by
  classical
  unfold normSum
  rw [← Finset.sum_filter_add_sum_filter_not (Finset.range (2 ^ n))
      (fun i => i.testBit b = true) (fun i => Complex.normSq (applyPair U b s i)),
    ← Finset.sum_filter_add_sum_filter_not (Finset.range (2 ^ n))
      (fun i => i.testBit b = true) (fun i => Complex.normSq (s i))]
  have hflip : ∀ i, i < 2 ^ n → ¬(i.testBit b = true) →
      (i ^^^ (1 <<< b) < 2 ^ n ∧ ((i ^^^ (1 <<< b)).testBit b = true)) := by
    intro i hi hbit
    refine ⟨xor_shift_lt b hi hb, ?_⟩
    rw [testBit_xor_shift_self]
    simp only [Bool.not_eq_true] at hbit
    simp [hbit]
  have hflip' : ∀ i, i < 2 ^ n → i.testBit b = true →
      (i ^^^ (1 <<< b) < 2 ^ n ∧ ¬((i ^^^ (1 <<< b)).testBit b = true)) := by
    intro i hi hbit
    refine ⟨xor_shift_lt b hi hb, ?_⟩
    rw [testBit_xor_shift_self, hbit]
    simp
  rw [← sum_filter_xor n (1 <<< b) (fun i => ¬(i.testBit b = true))
      (fun i => i.testBit b = true)
      (fun i => Complex.normSq (applyPair U b s i)) hflip hflip',
    ← sum_filter_xor n (1 <<< b) (fun i => ¬(i.testBit b = true))
      (fun i => i.testBit b = true)
      (fun i => Complex.normSq (s i)) hflip hflip',
    ← Finset.sum_add_distrib, ← Finset.sum_add_distrib]
  refine Finset.sum_congr rfl ?_
  intro i hi
  rw [Finset.mem_filter, Finset.mem_range] at hi
  have hbit : i.testBit b = false := by
    have := hi.2
    simp only [Bool.not_eq_true] at this
    exact this
  have e1 : applyPair U b s (i ^^^ (1 <<< b))
      = U 1 0 * s i + U 1 1 * s (i ^^^ (1 <<< b)) := by
    unfold applyPair
    rw [testBit_xor_shift_self, hbit, xor_xor_shift]
    simp
  have e2 : applyPair U b s i = U 0 0 * s i + U 0 1 * s (i ^^^ (1 <<< b)) := by
    unfold applyPair
    rw [hbit]
    simp
  have key := unitary_pair_normSq U hU (s i) (s (i ^^^ (1 <<< b)))
  rw [e1, e2]
  linarith [key]

lemma apply_cnot_normSum (n control target : ℕ) (hc : control < n) (ht : target < n)
    (hct : control ≠ target) (s : ℕ → ℂ) :
    normSum n (apply_cnot n control target s) = normSum n s := by
  classical
  unfold normSum
  have hpt : ∀ i ∈ Finset.range (2 ^ n),
      Complex.normSq (apply_cnot n control target s i)
        = Complex.normSq (if i.testBit control = true then s (i ^^^ (1 <<< target)) else s i) := by
    intro i hi
    rw [Finset.mem_range] at hi
    rw [apply_cnot_apply n control target hct s i]
    by_cases hbit : i.testBit control
    · rw [if_pos ⟨hbit, Or.inl hi⟩, if_pos hbit]
    · rw [if_neg (by tauto), if_neg hbit]
  rw [Finset.sum_congr rfl hpt,
    ← Finset.sum_filter_add_sum_filter_not (Finset.range (2 ^ n))
      (fun i => i.testBit control = true)
      (fun i => Complex.normSq (if i.testBit control = true then s (i ^^^ (1 <<< target)) else s i)),
    ← Finset.sum_filter_add_sum_filter_not (Finset.range (2 ^ n))
      (fun i => i.testBit control = true) (fun i => Complex.normSq (s i))]
  have hkeep : ∀ i, i < 2 ^ n → i.testBit control = true →
      (i ^^^ (1 <<< target) < 2 ^ n ∧ (i ^^^ (1 <<< target)).testBit control = true) := by
    intro i hi hbit
    refine ⟨xor_shift_lt target hi ht, ?_⟩
    rw [testBit_xor_shift_ne _ _ _ hct]
    exact hbit
  congr 1
  · calc ∑ i ∈ (Finset.range (2 ^ n)).filter (fun i => i.testBit control = true),
        Complex.normSq (if i.testBit control = true then s (i ^^^ (1 <<< target)) else s i)
        = ∑ i ∈ (Finset.range (2 ^ n)).filter (fun i => i.testBit control = true),
            Complex.normSq (s (i ^^^ (1 <<< target))) := by
          refine Finset.sum_congr rfl ?_
          intro i hi
          rw [Finset.mem_filter] at hi
          rw [if_pos hi.2]
      _ = ∑ i ∈ (Finset.range (2 ^ n)).filter (fun i => i.testBit control = true),
            Complex.normSq (s i) :=
        sum_filter_xor n (1 <<< target) (fun i => i.testBit control = true)
          (fun i => i.testBit control = true) (fun j => Complex.normSq (s j)) hkeep hkeep
  · refine Finset.sum_congr rfl ?_
    intro i hi
    rw [Finset.mem_filter] at hi
    rw [if_neg hi.2]

lemma testBit_xor_or_left (m a b : ℕ) :
    (m ^^^ ((1 <<< a) ||| (1 <<< b))).testBit a = !(m.testBit a) := by
  simp [Nat.one_shiftLeft, Nat.testBit_xor, Nat.testBit_or, Nat.testBit_two_pow_self]

lemma testBit_xor_or_right (m a b : ℕ) :
    (m ^^^ ((1 <<< a) ||| (1 <<< b))).testBit b = !(m.testBit b) := by
  simp [Nat.one_shiftLeft, Nat.testBit_xor, Nat.testBit_or, Nat.testBit_two_pow_self]

lemma xor_or_shift_lt {m n : ℕ} (a b : ℕ) (hm : m < 2 ^ n) (ha : a < n) (hb : b < n) :
    m ^^^ ((1 <<< a) ||| (1 <<< b)) < 2 ^ n := by
  rw [Nat.one_shiftLeft, Nat.one_shiftLeft]
  exact Nat.xor_lt_two_pow hm
    (Nat.or_lt_two_pow (Nat.pow_lt_pow_right (by norm_num) ha)
      (Nat.pow_lt_pow_right (by norm_num) hb))

lemma xor_xor_or_shift (m a b : ℕ) :
    (m ^^^ ((1 <<< a) ||| (1 <<< b))) ^^^ ((1 <<< a) ||| (1 <<< b)) = m :=
  Nat.xor_cancel_right _ m

/-- The differing-bits test survives xor with the SWAP mask. -/
lemma swap_differ_xor (m a b : ℕ) :
    ((m ^^^ ((1 <<< a) ||| (1 <<< b))).testBit a
        ≠ (m ^^^ ((1 <<< a) ||| (1 <<< b))).testBit b)
      ↔ (m.testBit a ≠ m.testBit b) := by
  rw [testBit_xor_or_left, testBit_xor_or_right]
  cases m.testBit a <;> cases m.testBit b <;> simp

lemma apply_swap_normSum (n a b : ℕ) (ha : a < n) (hb : b < n) (s : ℕ → ℂ) :
    normSum n (apply_swap n a b s) = normSum n s := by
  classical
  unfold normSum
  have hpt : ∀ i ∈ Finset.range (2 ^ n),
      Complex.normSq (apply_swap n a b s i)
        = Complex.normSq (if (i.testBit a ≠ i.testBit b)
            then s (i ^^^ ((1 <<< a) ||| (1 <<< b))) else s i) := by
    intro i hi
    rw [Finset.mem_range] at hi
    rw [apply_swap_apply, if_pos hi]
  rw [Finset.sum_congr rfl hpt,
    ← Finset.sum_filter_add_sum_filter_not (Finset.range (2 ^ n))
      (fun i => (i.testBit a ≠ i.testBit b))
      (fun i => Complex.normSq (if (i.testBit a ≠ i.testBit b)
        then s (i ^^^ ((1 <<< a) ||| (1 <<< b))) else s i)),
    ← Finset.sum_filter_add_sum_filter_not (Finset.range (2 ^ n))
      (fun i => (i.testBit a ≠ i.testBit b)) (fun i => Complex.normSq (s i))]
  have hkeep : ∀ i, i < 2 ^ n → (i.testBit a ≠ i.testBit b) →
      (i ^^^ ((1 <<< a) ||| (1 <<< b)) < 2 ^ n ∧
        ((i ^^^ ((1 <<< a) ||| (1 <<< b))).testBit a
          ≠ (i ^^^ ((1 <<< a) ||| (1 <<< b))).testBit b)) := by
    intro i hi hd
    exact ⟨xor_or_shift_lt a b hi ha hb, (swap_differ_xor i a b).mpr hd⟩
  congr 1
  · calc ∑ i ∈ (Finset.range (2 ^ n)).filter (fun i => (i.testBit a ≠ i.testBit b)),
        Complex.normSq (if (i.testBit a ≠ i.testBit b)
          then s (i ^^^ ((1 <<< a) ||| (1 <<< b))) else s i)
        = ∑ i ∈ (Finset.range (2 ^ n)).filter (fun i => (i.testBit a ≠ i.testBit b)),
            Complex.normSq (s (i ^^^ ((1 <<< a) ||| (1 <<< b)))) := by
          refine Finset.sum_congr rfl ?_
          intro i hi
          rw [Finset.mem_filter] at hi
          rw [if_pos hi.2]
      _ = ∑ i ∈ (Finset.range (2 ^ n)).filter (fun i => (i.testBit a ≠ i.testBit b)),
            Complex.normSq (s i) :=
        sum_filter_xor n ((1 <<< a) ||| (1 <<< b)) (fun i => (i.testBit a ≠ i.testBit b))
          (fun i => (i.testBit a ≠ i.testBit b)) (fun j => Complex.normSq (s j)) hkeep hkeep
  · refine Finset.sum_congr rfl ?_
    intro i hi
    rw [Finset.mem_filter] at hi
    rw [if_neg hi.2]

/-- Applying `_apply_swap` twice restores every amplitude. -/
lemma apply_swap_involution (n a b : ℕ) (ha : a < n) (hb : b < n) (s : ℕ → ℂ) :
    apply_swap n a b (apply_swap n a b s) = s := by
  funext m
  rw [apply_swap_apply]
  by_cases hm : m < 2 ^ n
  · rw [if_pos hm]
    by_cases hd : (m.testBit a ≠ m.testBit b)
    · rw [if_pos hd, apply_swap_apply,
        if_pos (xor_or_shift_lt a b hm ha hb),
        if_pos ((swap_differ_xor m a b).mpr hd), xor_xor_or_shift]
    · rw [if_neg hd, apply_swap_apply, if_pos hm, if_neg hd]
  · rw [if_neg hm, apply_swap_apply, if_neg hm]

/-! ### Unitarity of the gate matrices -/

lemma normSq_exp_real_mul_I (x : ℝ) :
    Complex.normSq (Complex.exp ((x : ℂ) * Complex.I)) = 1 := by
  rw [← Complex.sq_abs, Complex.abs_exp]
  simp

lemma Hmat_unitary : IsUnitary2 Hmat := by
  have h2 : Complex.normSq (((Real.sqrt 2 : ℝ) : ℂ)⁻¹) = 2⁻¹ := by
    rw [map_inv₀, Complex.normSq_ofReal, Real.mul_self_sqrt (by norm_num)]
  have e00 : Hmat 0 0 = ((Real.sqrt 2 : ℝ) : ℂ)⁻¹ * 1 := rfl
  have e01 : Hmat 0 1 = ((Real.sqrt 2 : ℝ) : ℂ)⁻¹ * 1 := rfl
  have e10 : Hmat 1 0 = ((Real.sqrt 2 : ℝ) : ℂ)⁻¹ * 1 := rfl
  have e11 : Hmat 1 1 = ((Real.sqrt 2 : ℝ) : ℂ)⁻¹ * -1 := rfl
  refine ⟨?_, ?_, ?_⟩
  · rw [e00, e10, mul_one, h2]
    norm_num
  · rw [e01, e11, Complex.normSq_mul, Complex.normSq_mul, h2]
    simp
    norm_num
  · rw [e00, e01, e10, e11]
    simp only [map_mul, map_one, map_inv₀, Complex.conj_ofReal]
    ring

lemma Xmat_unitary : IsUnitary2 Xmat := by
  refine ⟨?_, ?_, ?_⟩ <;> simp [Xmat]

lemma RXmat_unitary (θ : ℝ) : IsUnitary2 (RXmat θ) := by
  have hsc := Real.sin_sq_add_cos_sq (θ / 2)
  have e00 : RXmat θ 0 0 = ((Real.cos (θ / 2) : ℝ) : ℂ) := rfl
  have e01 : RXmat θ 0 1 = -Complex.I * ((Real.sin (θ / 2) : ℝ) : ℂ) := rfl
  have e10 : RXmat θ 1 0 = -Complex.I * ((Real.sin (θ / 2) : ℝ) : ℂ) := rfl
  have e11 : RXmat θ 1 1 = ((Real.cos (θ / 2) : ℝ) : ℂ) := rfl
  have hcos : Complex.normSq (((Real.cos (θ / 2) : ℝ) : ℂ)) = Real.cos (θ / 2) ^ 2 := by
    rw [Complex.normSq_ofReal]
    ring
  have hsin : Complex.normSq (-Complex.I * ((Real.sin (θ / 2) : ℝ) : ℂ))
      = Real.sin (θ / 2) ^ 2 := by
    rw [Complex.normSq_mul, Complex.normSq_neg, Complex.normSq_I, one_mul,
      Complex.normSq_ofReal]
    ring
  refine ⟨?_, ?_, ?_⟩
  · rw [e00, e10, hcos, hsin]
    linarith
  · rw [e01, e11, hcos, hsin]
    linarith
  · rw [e00, e01, e10, e11]
    simp only [map_mul, map_neg, Complex.conj_I, Complex.conj_ofReal]
    ring

lemma RYmat_unitary (θ : ℝ) : IsUnitary2 (RYmat θ) := by
  have hsc := Real.sin_sq_add_cos_sq (θ / 2)
  have e00 : RYmat θ 0 0 = ((Real.cos (θ / 2) : ℝ) : ℂ) := rfl
  have e01 : RYmat θ 0 1 = -((Real.sin (θ / 2) : ℝ) : ℂ) := rfl
  have e10 : RYmat θ 1 0 = ((Real.sin (θ / 2) : ℝ) : ℂ) := rfl
  have e11 : RYmat θ 1 1 = ((Real.cos (θ / 2) : ℝ) : ℂ) := rfl
  have hcos : Complex.normSq (((Real.cos (θ / 2) : ℝ) : ℂ)) = Real.cos (θ / 2) ^ 2 := by
    rw [Complex.normSq_ofReal]
    ring
  have hsin : Complex.normSq (((Real.sin (θ / 2) : ℝ) : ℂ)) = Real.sin (θ / 2) ^ 2 := by
    rw [Complex.normSq_ofReal]
    ring
  have hsin2 : Complex.normSq (-((Real.sin (θ / 2) : ℝ) : ℂ)) = Real.sin (θ / 2) ^ 2 := by
    rw [Complex.normSq_neg]
    exact hsin
  refine ⟨?_, ?_, ?_⟩
  · rw [e00, e10, hcos, hsin]
    linarith
  · rw [e01, e11, hcos, hsin2]
    linarith
  · rw [e00, e01, e10, e11]
    simp only [map_neg, Complex.conj_ofReal]
    ring

lemma RZmat_unitary (θ : ℝ) : IsUnitary2 (RZmat θ) := by
  have e0 : (-(θ : ℂ) / 2 * Complex.I) = ((-θ / 2 : ℝ) : ℂ) * Complex.I := by
    push_cast
    ring
  have e1 : ((θ : ℂ) / 2 * Complex.I) = ((θ / 2 : ℝ) : ℂ) * Complex.I := by
    push_cast
    ring
  have e00 : RZmat θ 0 0 = Complex.exp (-(θ : ℂ) / 2 * Complex.I) := rfl
  have e01 : RZmat θ 0 1 = 0 := rfl
  have e10 : RZmat θ 1 0 = 0 := rfl
  have e11 : RZmat θ 1 1 = Complex.exp ((θ : ℂ) / 2 * Complex.I) := rfl
  refine ⟨?_, ?_, ?_⟩
  · rw [e00, e10, e0, normSq_exp_real_mul_I]
    simp
  · rw [e01, e11, e1, normSq_exp_real_mul_I]
    simp
  · rw [e00, e01, e10, e11]
    simp

/-! ### Normalization through the gate loop -/

lemma normSum_groundState (n : ℕ) : normSum n groundState = 1 := by
  unfold normSum groundState
  have h : ∀ i ∈ Finset.range (2 ^ n),
      Complex.normSq (if i = 0 then (1 : ℂ) else 0) = if i = 0 then (1 : ℝ) else 0 := by
    intro i _
    by_cases hi : i = 0 <;> simp [hi]
  rw [Finset.sum_congr rfl h, Finset.sum_ite_eq' (Finset.range (2 ^ n)) 0 (fun _ => (1 : ℝ))]
  simp [Nat.pos_pow_of_pos]

lemma noiseStep_none (s : ℕ → ℂ) (g : Gate) : noiseStep none s g = s := rfl

/-- Iterating only recognized-or-skipped unitary gates (no measurement, no
noise hook) returns a statevector, leaves the generator untouched, and
preserves the squared norm. -/
lemma runGates_unitary_only (sample : Rng → List ℝ → ℕ) (n shots : ℕ) :
    ∀ (gs : List Gate) (s : ℕ → ℂ) (g : Rng),
      (∀ gt ∈ gs, unitaryGateOK n gt) →
      ∃ s', runGates sample n none shots gs s g = (RunResult.state s', g)
        ∧ normSum n s' = normSum n s := by
  intro gs
  induction gs with
  | nil =>
    intro s g _
    exact ⟨s, rfl, rfl⟩
  | cons gt rest ih =>
    intro s g hok
    have hgt := hok gt (List.mem_cons_self gt rest)
    have hrest : ∀ x ∈ rest, unitaryGateOK n x :=
      fun x hx => hok x (List.mem_cons_of_mem gt hx)
    obtain ⟨hmem, h2q, h1q⟩ := hgt
    have hmem' : gt.name = "H" ∨ gt.name = "X" ∨ gt.name = "Y" ∨ gt.name = "Z" ∨
        gt.name = "S" ∨ gt.name = "T" ∨ gt.name = "RX" ∨ gt.name = "RY" ∨
        gt.name = "RZ" ∨ gt.name = "CNOT" ∨ gt.name = "SWAP" := by
      simpa using hmem
    rcases hmem' with h | h | h | h | h | h | h | h | h | h | h
    · have hb : n - 1 - gt.targets.getD 0 0 < n := by
        have := h1q (Or.inl h)
        omega
      obtain ⟨s', e, hn⟩ := ih (apply_single_qubit_unitary n Hmat (gt.targets.getD 0 0) s) g hrest
      refine ⟨s', ?_, ?_⟩
      · rw [show runGates sample n none shots (gt :: rest) s g
            = runGates sample n none shots rest
                (apply_single_qubit_unitary n Hmat (gt.targets.getD 0 0) s) g by
          simp [runGates, h, noiseStep_none]]
        exact e
      · rw [hn]
        exact applyPair_normSum Hmat Hmat_unitary hb s
    · have hb : n - 1 - gt.targets.getD 0 0 < n := by
        have := h1q (Or.inr (Or.inl h))
        omega
      obtain ⟨s', e, hn⟩ := ih (apply_single_qubit_unitary n Xmat (gt.targets.getD 0 0) s) g hrest
      refine ⟨s', ?_, ?_⟩
      · rw [show runGates sample n none shots (gt :: rest) s g
            = runGates sample n none shots rest
                (apply_single_qubit_unitary n Xmat (gt.targets.getD 0 0) s) g by
          simp [runGates, h, noiseStep_none]]
        exact e
      · rw [hn]
        exact applyPair_normSum Xmat Xmat_unitary hb s
    · obtain ⟨s', e, hn⟩ := ih s g hrest
      refine ⟨s', ?_, hn⟩
      rw [show runGates sample n none shots (gt :: rest) s g
          = runGates sample n none shots rest s g by
        simp [runGates, h, noiseStep_none]]
      exact e
    · obtain ⟨s', e, hn⟩ := ih s g hrest
      refine ⟨s', ?_, hn⟩
      rw [show runGates sample n none shots (gt :: rest) s g
          = runGates sample n none shots rest s g by
        simp [runGates, h, noiseStep_none]]
      exact e
    · obtain ⟨s', e, hn⟩ := ih s g hrest
      refine ⟨s', ?_, hn⟩
      rw [show runGates sample n none shots (gt :: rest) s g
          = runGates sample n none shots rest s g by
        simp [runGates, h, noiseStep_none]]
      exact e
    · obtain ⟨s', e, hn⟩ := ih s g hrest
      refine ⟨s', ?_, hn⟩
      rw [show runGates sample n none shots (gt :: rest) s g
          = runGates sample n none shots rest s g by
        simp [runGates, h, noiseStep_none]]
      exact e
    · have hb : n - 1 - gt.targets.getD 0 0 < n := by
        have := h1q (Or.inr (Or.inr (Or.inl h)))
        omega
      obtain ⟨s', e, hn⟩ := ih
        (apply_single_qubit_unitary n (RXmat (gt.params.getD 0 0)) (gt.targets.getD 0 0) s) g hrest
      refine ⟨s', ?_, ?_⟩
      · rw [show runGates sample n none shots (gt :: rest) s g
            = runGates sample n none shots rest
                (apply_single_qubit_unitary n (RXmat (gt.params.getD 0 0))
                  (gt.targets.getD 0 0) s) g by
          simp [runGates, h, noiseStep_none]]
        exact e
      · rw [hn]
        exact applyPair_normSum _ (RXmat_unitary _) hb s
    · have hb : n - 1 - gt.targets.getD 0 0 < n := by
        have := h1q (Or.inr (Or.inr (Or.inr (Or.inl h))))
        omega
      obtain ⟨s', e, hn⟩ := ih
        (apply_single_qubit_unitary n (RYmat (gt.params.getD 0 0)) (gt.targets.getD 0 0) s) g hrest
      refine ⟨s', ?_, ?_⟩
      · rw [show runGates sample n none shots (gt :: rest) s g
            = runGates sample n none shots rest
                (apply_single_qubit_unitary n (RYmat (gt.params.getD 0 0))
                  (gt.targets.getD 0 0) s) g by
          simp [runGates, h, noiseStep_none]]
        exact e
      · rw [hn]
        exact applyPair_normSum _ (RYmat_unitary _) hb s
    · have hb : n - 1 - gt.targets.getD 0 0 < n := by
        have := h1q (Or.inr (Or.inr (Or.inr (Or.inr h))))
        omega
      obtain ⟨s', e, hn⟩ := ih
        (apply_single_qubit_unitary n (RZmat (gt.params.getD 0 0)) (gt.targets.getD 0 0) s) g hrest
      refine ⟨s', ?_, ?_⟩
      · rw [show runGates sample n none shots (gt :: rest) s g
            = runGates sample n none shots rest
                (apply_single_qubit_unitary n (RZmat (gt.params.getD 0 0))
                  (gt.targets.getD 0 0) s) g by
          simp [runGates, h, noiseStep_none]]
        exact e
      · rw [hn]
        exact applyPair_normSum _ (RZmat_unitary _) hb s
    · obtain ⟨hc, ht, hne⟩ := h2q (Or.inl h)
      obtain ⟨s', e, hn⟩ := ih
        (apply_cnot n (gt.targets.getD 0 0) (gt.targets.getD 1 0) s) g hrest
      refine ⟨s', ?_, ?_⟩
      · rw [show runGates sample n none shots (gt :: rest) s g
            = runGates sample n none shots rest
                (apply_cnot n (gt.targets.getD 0 0) (gt.targets.getD 1 0) s) g by
          simp [runGates, h, noiseStep_none]]
        exact e
      · rw [hn]
        exact apply_cnot_normSum n _ _ hc ht hne s
    · obtain ⟨hc, ht, hne⟩ := h2q (Or.inr h)
      obtain ⟨s', e, hn⟩ := ih
        (apply_swap n (gt.targets.getD 0 0) (gt.targets.getD 1 0) s) g hrest
      refine ⟨s', ?_, ?_⟩
      · rw [show runGates sample n none shots (gt :: rest) s g
            = runGates sample n none shots rest
                (apply_swap n (gt.targets.getD 0 0) (gt.targets.getD 1 0) s) g by
          simp [runGates, h, noiseStep_none]]
        exact e
      · rw [hn]
        exact apply_swap_normSum n _ _ hc ht s

/-- C1: for every circuit whose gates are drawn only from
H/X/Y/Z/S/T/RX/RY/RZ/CNOT/SWAP (no measurement gate; targets in range and
distinct for the two-qubit gates), `run` returns an amplitude vector and
`Σ|amplitude_i|²` equals 1 within tolerance `1e-9`, starting from the
normalized ground state. -/
theorem run_normalized_of_unitary_gates (sample : Rng → List ℝ → ℕ) (shots : ℕ)
    (c : QuantumCircuit) (g : Rng)
    (hok : ∀ gt ∈ c.gates, unitaryGateOK c.num_qubits gt) :
    ∃ s, simRun sample c none none shots g = (RunResult.state s, g)
      ∧ |normSum c.num_qubits s - 1| ≤ 1e-9 := by
  obtain ⟨s, hs, hn⟩ :=
    runGates_unitary_only sample c.num_qubits shots c.gates groundState g hok
  refine ⟨s, hs, ?_⟩
  rw [hn, normSum_groundState]
  norm_num

/-- Closed instance of C1 at the 2-qubit circuit `[H(0), CNOT(0,1)]`. -/
theorem run_normalized_witness :
    (∀ gt ∈ ([⟨"H", [0], []⟩, ⟨"CNOT", [0, 1], []⟩] : List Gate), unitaryGateOK 2 gt) ∧
    ∃ s, simRun sampleZero ⟨2, [⟨"H", [0], []⟩, ⟨"CNOT", [0, 1], []⟩]⟩ none none 1 ⟨0, 0⟩
        = (RunResult.state s, ⟨0, 0⟩) ∧ |normSum 2 s - 1| ≤ 1e-9 := by
  have hok : ∀ gt ∈ ([⟨"H", [0], []⟩, ⟨"CNOT", [0, 1], []⟩] : List Gate),
      unitaryGateOK 2 gt := by decide
  exact ⟨hok,
    run_normalized_of_unitary_gates sampleZero 1 ⟨2, [⟨"H", [0], []⟩, ⟨"CNOT", [0, 1], []⟩]⟩
      ⟨0, 0⟩ hok⟩

/-! ### Unrecognized gates, validation, measurement, noise, defaults -/

/-- C2 counterexample: a circuit containing the unrecognized gate name FOO
runs to completion and returns the (unchanged) statevector; `run` has no
exception path for unknown names, so no `UnsupportedGateError` is raised
and the run is not aborted. -/
theorem unrecognized_gate_no_error :
    simRun sampleZero ⟨1, [⟨"FOO", [0], []⟩]⟩ none none 1 ⟨0, 0⟩
      = (RunResult.state groundState, ⟨0, 0⟩) := by
  simp [simRun, runGates, noiseStep, initRng]

/-- C2 amended: a gate whose name matches no branch of the `if`/`elif`
chain is silently skipped — the state passes through unchanged (up to the
noise hook, which is still invoked) and the run continues with the
remaining gates. -/
theorem unrecognized_gate_skipped (sample : Rng → List ℝ → ℕ) (n : ℕ)
    (hook : Option NoiseHook) (shots : ℕ) (gt : Gate)
    (h : gt.name ∉ recognizedNames) (rest : List Gate) (s : ℕ → ℂ) (g : Rng) :
    runGates sample n hook shots (gt :: rest) s g
      = runGates sample n hook shots rest (noiseStep hook s gt) g := by
  have h' : ¬(gt.name = "H" ∨ gt.name = "X" ∨ gt.name = "RX" ∨ gt.name = "RY" ∨
      gt.name = "RZ" ∨ gt.name = "CNOT" ∨ gt.name = "SWAP" ∨ gt.name = "M" ∨
      gt.name = "Measure") := by
    simpa [recognizedNames] using h
  push_neg at h'
  obtain ⟨h1, h2, h3, h4, h5, h6, h7, h8, h9⟩ := h'
  simp [runGates, h1, h2, h3, h4, h5, h6, h7, h8, h9]

/-- Closed instance of the amended C2 at the gate name FOO. -/
theorem unrecognized_gate_skipped_witness :
    ("FOO" ∉ recognizedNames) ∧
    runGates sampleZero 1 none 1 [⟨"FOO", [0], []⟩] groundState ⟨0, 0⟩
      = runGates sampleZero 1 none 1 []
          (noiseStep none groundState ⟨"FOO", [0], []⟩) ⟨0, 0⟩ :=
  ⟨by decide,
   unrecognized_gate_skipped sampleZero 1 none 1 ⟨"FOO", [0], []⟩ (by decide) []
     groundState ⟨0, 0⟩⟩

/-- C3 counterexample: `add_gate('CNOT', targets=[0])` does not fail — it
returns success with the one-target CNOT gate appended. -/
theorem add_gate_cnot_single_target_appends :
    add_gate ⟨2, []⟩ (.byName "CNOT") (some [0]) none
      = .ok ⟨2, [⟨"CNOT", [0], []⟩]⟩ := rfl

/-- C3 amended: `add_gate` performs no arity or index-range validation;
adding by name with any targets list appends unconditionally, the only
error is a missing targets list when adding by name, and a `Gate` instance
is appended as-is. -/
theorem add_gate_no_validation (c : QuantumCircuit) (nm : String) (ts : List ℕ)
    (ps : Option (List ℝ)) (gt : Gate) :
    add_gate c (.byName nm) (some ts) ps
        = .ok { c with gates := c.gates ++ [⟨nm, ts, ps.getD []⟩] }
      ∧ add_gate c (.byName nm) none ps
        = .error "targets required when adding gate by name"
      ∧ add_gate c (.inst gt) none none = .ok { c with gates := c.gates ++ [gt] } :=
  ⟨rfl, rfl, rfl⟩

/-- C4: on the first `M`/`Measure` gate, `run` computes `|amplitude|²`
probabilities, draws `shots` samples, tallies them by fixed-width binary
label and returns that mapping immediately; any gates after the
measurement gate are never applied. -/
theorem measurement_terminates_run (sample : Rng → List ℝ → ℕ) (n : ℕ)
    (hook : Option NoiseHook) (shots : ℕ) (gt : Gate) (hm : isMeasure gt) :
    (∀ (rest : List Gate) (s : ℕ → ℂ) (g : Rng),
      runGates sample n hook shots (gt :: rest) s g
        = (RunResult.counts (tallyLoop n (drawSamples sample shots g
            ((List.range (2 ^ n)).map (fun i => Complex.normSq (s i)))).1),
           (drawSamples sample shots g
            ((List.range (2 ^ n)).map (fun i => Complex.normSq (s i)))).2)) ∧
    (∀ (gs rest : List Gate) (s : ℕ → ℂ) (g : Rng),
      runGates sample n hook shots (gs ++ gt :: rest) s g
        = runGates sample n hook shots (gs ++ [gt]) s g) := by
  constructor
  · intro rest s g
    rcases hm with h | h <;> simp [runGates, h]
  · intro gs
    induction gs with
    | nil =>
      intro rest s g
      rcases hm with h | h <;> simp [runGates, h]
    | cons a tl ih =>
      intro rest s g
      simp only [List.cons_append, runGates]
      split_ifs <;> first | exact ih rest _ _ | rfl

/-- Closed instance of C4: `[H(0), Measure(0), X(0)]` produces the same
result as `[H(0), Measure(0)]`. -/
theorem measurement_terminates_run_witness :
    isMeasure ⟨"Measure", [0], []⟩ ∧
    runGates sampleZero 1 none 3
        [⟨"H", [0], []⟩, ⟨"Measure", [0], []⟩, ⟨"X", [0], []⟩] groundState ⟨0, 0⟩
      = runGates sampleZero 1 none 3
          [⟨"H", [0], []⟩, ⟨"Measure", [0], []⟩] groundState ⟨0, 0⟩ :=
  ⟨Or.inr rfl,
   (measurement_terminates_run sampleZero 1 none 3 ⟨"Measure", [0], []⟩ (Or.inr rfl)).2
     [⟨"H", [0], []⟩] [⟨"X", [0], []⟩] groundState ⟨0, 0⟩⟩

/-- C6: applying `_apply_swap` with distinct in-range qubits twice in
succession returns the original amplitude vector exactly. -/
theorem swap_involution (n a b : ℕ) (ha : a < n) (hb : b < n) (hab : a ≠ b)
    (s : ℕ → ℂ) :
    apply_swap n a b (apply_swap n a b s) = s :=
  apply_swap_involution n a b ha hb s

/-- Closed instance of C6 on two qubits. -/
theorem swap_involution_witness :
    ((0 : ℕ) < 2 ∧ (1 : ℕ) < 2 ∧ (0 : ℕ) ≠ 1) ∧
    apply_swap 2 0 1 (apply_swap 2 0 1 groundState) = groundState :=
  ⟨by decide, swap_involution 2 0 1 (by norm_num) (by norm_num) (by norm_num) groundState⟩

/-- C7: an exception inside the noise hook is caught — the per-gate noise
step keeps the pre-hook state, and a run whose hook always raises produces
exactly what the same run with no hook produces (the simulation continues;
the run is not aborted). -/
theorem noise_hook_fail_soft :
    (∀ (h : NoiseHook) (s : ℕ → ℂ) (gt : Gate),
      h s gt = none → noiseStep (some h) s gt = s) ∧
    (∀ (sample : Rng → List ℝ → ℕ) (n shots : ℕ) (h : NoiseHook),
      (∀ s gt, h s gt = none) →
      ∀ (gs : List Gate) (s : ℕ → ℂ) (g : Rng),
        runGates sample n (some h) shots gs s g
          = runGates sample n none shots gs s g) := by
  constructor
  · intro h s gt hr
    simp [noiseStep, hr]
  · intro sample n shots h hfail gs
    induction gs with
    | nil =>
      intro s g
      rfl
    | cons gt rest ih =>
      intro s g
      have hs : ∀ s', noiseStep (some h) s' gt = s' := by
        intro s'
        simp [noiseStep, hfail]
      simp only [runGates, hs, noiseStep_none]
      split_ifs <;> first | exact ih _ _ | rfl

/-- The always-raising hook, a concrete broken noise plugin. -/
def alwaysRaise : NoiseHook := fun _ _ => none

/-- Closed instance of C7 with the always-raising hook. -/
theorem noise_hook_fail_soft_witness :
    noiseStep (some alwaysRaise) groundState ⟨"H", [0], []⟩ = groundState ∧
    runGates sampleZero 1 (some alwaysRaise) 1 [⟨"H", [0], []⟩] groundState ⟨0, 0⟩
      = runGates sampleZero 1 none 1 [⟨"H", [0], []⟩] groundState ⟨0, 0⟩ :=
  ⟨noise_hook_fail_soft.1 alwaysRaise groundState ⟨"H", [0], []⟩ rfl,
   noise_hook_fail_soft.2 sampleZero 1 1 alwaysRaise (fun _ _ => rfl)
     [⟨"H", [0], []⟩] groundState ⟨0, 0⟩⟩

/-! ### Default rotation angle -/

lemma applyPair_id (U : Fin 2 → Fin 2 → ℂ) (h00 : U 0 0 = 1) (h01 : U 0 1 = 0)
    (h10 : U 1 0 = 0) (h11 : U 1 1 = 1) (b : ℕ) (s : ℕ → ℂ) :
    applyPair U b s = s := by
  funext i
  unfold applyPair
  rw [h00, h01, h10, h11]
  by_cases hb : i.testBit b <;> simp [hb]

lemma RXmat_zero_id (b : ℕ) (s : ℕ → ℂ) : applyPair (RXmat 0) b s = s := by
  refine applyPair_id _ ?_ ?_ ?_ ?_ b s
  · show ((Real.cos ((0 : ℝ) / 2) : ℝ) : ℂ) = 1
    norm_num
  · show -Complex.I * ((Real.sin ((0 : ℝ) / 2) : ℝ) : ℂ) = 0
    norm_num
  · show -Complex.I * ((Real.sin ((0 : ℝ) / 2) : ℝ) : ℂ) = 0
    norm_num
  · show ((Real.cos ((0 : ℝ) / 2) : ℝ) : ℂ) = 1
    norm_num

lemma RYmat_zero_id (b : ℕ) (s : ℕ → ℂ) : applyPair (RYmat 0) b s = s := by
  refine applyPair_id _ ?_ ?_ ?_ ?_ b s
  · show ((Real.cos ((0 : ℝ) / 2) : ℝ) : ℂ) = 1
    norm_num
  · show -((Real.sin ((0 : ℝ) / 2) : ℝ) : ℂ) = 0
    norm_num
  · show ((Real.sin ((0 : ℝ) / 2) : ℝ) : ℂ) = 0
    norm_num
  · show ((Real.cos ((0 : ℝ) / 2) : ℝ) : ℂ) = 1
    norm_num

lemma RZmat_zero_id (b : ℕ) (s : ℕ → ℂ) : applyPair (RZmat 0) b s = s := by
  refine applyPair_id _ ?_ ?_ ?_ ?_ b s
  · show Complex.exp (-((0 : ℝ) : ℂ) / 2 * Complex.I) = 1
    norm_num
  · rfl
  · rfl
  · show Complex.exp (((0 : ℝ) : ℂ) / 2 * Complex.I) = 1
    norm_num

/-- C10: an `RX`/`RY`/`RZ` gate whose params list is empty uses the default
angle `0.0`; the resulting 2×2 matrix is the identity, so the gate leaves
the amplitude vector unchanged, both at the primitive level and inside
`run`'s dispatch. -/
theorem rotation_empty_params_identity :
    (∀ (b : ℕ) (s : ℕ → ℂ), applyPair (RXmat 0) b s = s) ∧
    (∀ (b : ℕ) (s : ℕ → ℂ), applyPair (RYmat 0) b s = s) ∧
    (∀ (b : ℕ) (s : ℕ → ℂ), applyPair (RZmat 0) b s = s) ∧
    (∀ (sample : Rng → List ℝ → ℕ) (n shots t : ℕ) (rest : List Gate)
      (s : ℕ → ℂ) (g : Rng),
      runGates sample n none shots (⟨"RX", [t], []⟩ :: rest) s g
        = runGates sample n none shots rest s g) ∧
    (∀ (sample : Rng → List ℝ → ℕ) (n shots t : ℕ) (rest : List Gate)
      (s : ℕ → ℂ) (g : Rng),
      runGates sample n none shots (⟨"RY", [t], []⟩ :: rest) s g
        = runGates sample n none shots rest s g) ∧
    (∀ (sample : Rng → List ℝ → ℕ) (n shots t : ℕ) (rest : List Gate)
      (s : ℕ → ℂ) (g : Rng),
      runGates sample n none shots (⟨"RZ", [t], []⟩ :: rest) s g
        = runGates sample n none shots rest s g) := by
  refine ⟨RXmat_zero_id, RYmat_zero_id, RZmat_zero_id, ?_, ?_, ?_⟩
  · intro sample n shots t rest s g
    have hid := RXmat_zero_id (n - 1 - t) s
    simp [runGates, noiseStep_none, apply_single_qubit_unitary, hid]
  · intro sample n shots t rest s g
    have hid := RYmat_zero_id (n - 1 - t) s
    simp [runGates, noiseStep_none, apply_single_qubit_unitary, hid]
  · intro sample n shots t rest s g
    have hid := RZmat_zero_id (n - 1 - t) s
    simp [runGates, noiseStep_none, apply_single_qubit_unitary, hid]

/-! ### The X-then-CNOT truth table -/

lemma applyPair_X (b : ℕ) (s : ℕ → ℂ) :
    applyPair Xmat b s = fun i => s (i ^^^ (1 <<< b)) := by
  funext i
  unfold applyPair
  have h00 : Xmat 0 0 = 0 := rfl
  have h01 : Xmat 0 1 = 1 := rfl
  have h10 : Xmat 1 0 = 1 := rfl
  have h11 : Xmat 1 1 = 0 := rfl
  rw [h00, h01, h10, h11]
  by_cases hb : i.testBit b <;> simp [hb]

lemma c5_state_eval :
    apply_cnot 2 0 1 (apply_single_qubit_unitary 2 Xmat 0 groundState)
      = fun i => if i = 2 then (1 : ℂ) else 0 := by
  have hx : apply_single_qubit_unitary 2 Xmat 0 groundState
      = fun i => groundState (i ^^^ (1 <<< 1)) := applyPair_X 1 groundState
  rw [hx]
  funext i
  rw [apply_cnot_apply 2 0 1 (by norm_num) _ i]
  by_cases hodd : i.testBit 0
  · by_cases hlt : i < 2 ^ 2 ∨ i ^^^ (1 <<< 1) < 2 ^ 2
    · rw [if_pos ⟨hodd, hlt⟩]
      have hne0 : i ≠ 0 := by
        intro h
        rw [h] at hodd
        exact absurd hodd (by decide)
      have hne2 : i ≠ 2 := by
        intro h
        rw [h] at hodd
        exact absurd hodd (by decide)
      show groundState ((i ^^^ 1 <<< 1) ^^^ 1 <<< 1) = _
      rw [xor_xor_shift]
      show (if i = 0 then (1 : ℂ) else 0) = _
      rw [if_neg hne0, if_neg hne2]
    · rw [if_neg (by tauto)]
      push_neg at hlt
      have h4 : i ^^^ (1 <<< 1) ≠ 0 := by
        intro h0
        apply absurd hlt.2
        rw [h0]
        norm_num
      have hne2 : i ≠ 2 := by
        intro h
        rw [h] at hodd
        exact absurd hodd (by decide)
      show (if i ^^^ 1 <<< 1 = 0 then (1 : ℂ) else 0) = _
      rw [if_neg h4, if_neg hne2]
  · rw [if_neg (by tauto)]
    have hiff : i ^^^ (1 <<< 1) = 0 ↔ i = 2 := by
      rw [Nat.xor_eq_zero]
      norm_num [Nat.one_shiftLeft]
    show (if i ^^^ 1 <<< 1 = 0 then (1 : ℂ) else 0) = _
    simp only [hiff]

/-- C5 (actual behavior at the failing input): on 2 qubits, `X(0)` then
`CNOT(control=0, target=1)` from `|00⟩` yields amplitude 1 at index 2 and 0
at index 3.  `_apply_single_qubit_unitary` addresses qubits from the most
significant bit (numpy's axis 0), so `X(0)` flips bit 1 of the index while
`_apply_cnot` reads the control from bit 0; the claimed amplitude 1 at
index 3 does not occur. -/
theorem x_cnot_truth_table_actual :
    simRun sampleZero ⟨2, [⟨"X", [0], []⟩, ⟨"CNOT", [0, 1], []⟩]⟩ none none 1 ⟨0, 0⟩
      = (RunResult.state (fun i => if i = 2 then (1 : ℂ) else 0), ⟨0, 0⟩) ∧
    (if (2 : ℕ) = 2 then (1 : ℂ) else 0) = 1 ∧
    (if (3 : ℕ) = 2 then (1 : ℂ) else 0) = 0 := by
  refine ⟨?_, by norm_num, by norm_num⟩
  have h1 : simRun sampleZero ⟨2, [⟨"X", [0], []⟩, ⟨"CNOT", [0, 1], []⟩]⟩ none none 1 ⟨0, 0⟩
      = (RunResult.state
          (apply_cnot 2 0 1 (apply_single_qubit_unitary 2 Xmat 0 groundState)), ⟨0, 0⟩) := by
    simp [simRun, runGates, noiseStep_none, initRng]
  rw [h1, c5_state_eval]

/-! ### The bit-flip channel at p = 1 -/

lemma bit_flip_all_true_two (s : ℕ → ℂ) :
    bit_flip (fun _ => true) 2 0 s = s := by
  have hr : List.range 2 = [0, 1] := rfl
  funext i
  show ((List.range 2).foldl _ s) i = s i
  rw [hr]
  simp only [List.foldl_cons, List.foldl_nil, bit_flip]
  norm_num [Function.update]
  rcases eq_or_ne i 0 with h0 | h0
  · simp [h0]
  · rcases eq_or_ne i 1 with h1 | h1
    · simp [h1]
    · simp [h0, h1]

/-- C8 (actual behavior at the failing input): with probability 1 every
loop iteration fires, so each amplitude pair is swapped twice in place and
`bit_flip(state, 1, 0)` returns the state unchanged; it does not equal the
state with an `X` gate applied (the ground state would have to become
`[0, 1]`). -/
theorem bit_flip_p_one_not_X :
    bit_flip (fun _ => true) 2 0 groundState = groundState ∧
    apply_single_qubit_unitary 1 Xmat 0 groundState 0 = 0 ∧
    groundState 0 = 1 ∧
    bit_flip (fun _ => true) 2 0 groundState
      ≠ apply_single_qubit_unitary 1 Xmat 0 groundState := by
  have e1 : bit_flip (fun _ => true) 2 0 groundState = groundState :=
    bit_flip_all_true_two groundState
  have e2 : apply_single_qubit_unitary 1 Xmat 0 groundState 0 = 0 := by
    have hx : apply_single_qubit_unitary 1 Xmat 0 groundState
        = fun i => groundState (i ^^^ (1 <<< 0)) := applyPair_X 0 groundState
    rw [hx]
    show groundState (0 ^^^ 1 <<< 0) = 0
    norm_num [groundState]
  refine ⟨e1, e2, rfl, ?_⟩
  intro h
  have hg : groundState 0 = (0 : ℂ) := by
    rw [← congrFun e1 0, congrFun h 0, e2]
  have : (1 : ℂ) = 0 := by
    rw [← hg]
    rfl
  exact one_ne_zero this

/-! ### Seeding and the shared global generator -/

lemma run_h_measure (g : Rng) :
    runGates samplePos 1 none 1 [⟨"H", [0], []⟩, ⟨"M", [0], []⟩] groundState g
      = (RunResult.counts (tallyLoop 1 [g.pos % 2]), ⟨g.seed, g.pos + 1⟩) := by
  simp [runGates, noiseStep_none, drawSamples, samplePos]

/-- C9 counterexample: both simulators are constructed with seed 42 (each
construction re-seeds the shared global generator), then the two runs
execute one after the other.  The first run draws from position 0 of the
seeded stream and leaves the global generator at position 1, where the
second run starts: with the position-dependent sampler the two equal-shot
runs of the same circuit return different count maps, so same-seed
instances are not independent — the generator state lives in
`np.random`, not in the instance. -/
theorem same_seed_interleaved_runs_differ :
    runGates samplePos 1 none 1 [⟨"H", [0], []⟩, ⟨"M", [0], []⟩] groundState
        (initRng (some 42) (initRng (some 42) ⟨0, 0⟩))
      = (RunResult.counts (tallyLoop 1 [0]), ⟨42, 1⟩) ∧
    runGates samplePos 1 none 1 [⟨"H", [0], []⟩, ⟨"M", [0], []⟩] groundState ⟨42, 1⟩
      = (RunResult.counts (tallyLoop 1 [1]), ⟨42, 2⟩) ∧
    tallyLoop 1 [0] "0" = 1 ∧
    tallyLoop 1 [1] "0" = 0 ∧
    RunResult.counts (tallyLoop 1 [0]) ≠ RunResult.counts (tallyLoop 1 [1]) := by
  refine ⟨?_, ?_, by decide, by decide, ?_⟩
  · rw [show initRng (some 42) (initRng (some 42) ⟨0, 0⟩) = (⟨42, 0⟩ : Rng) from rfl,
      run_h_measure ⟨42, 0⟩]
    rfl
  · rw [run_h_measure ⟨42, 1⟩]
    rfl
  · intro h
    exact absurd (congrArg (fun r => countsAt r "0") h) (by decide)

/-- C9 amended: reproducibility holds exactly when each run begins from the
generator state that its own seeding installed: seeding overwrites the
shared global generator, so the run result is independent of whatever the
generator held before.  Two simulators built with the same seed and run
construct-run, construct-run (serially, no interleaving) therefore return
identical results for every sampler, circuit, hook and shot count. -/
theorem same_seed_fresh_runs_identical (sample : Rng → List ℝ → ℕ)
    (c : QuantumCircuit) (hook : Option NoiseHook) (seed shots : ℕ) (g g' : Rng) :
    (simRun sample c hook (some seed) shots g).1
      = (simRun sample c hook (some seed) shots g').1 := rfl
